import Mathlib

/-!
Verification of the tuiscope fuzzy-finder core.

The development shallowly embeds the two components the claims are about:

* the highlight segmenter of `src/highlight.rs` (duplicated as
  `highlight_sections_from_stringdices` in `src/lib.rs`): texts are modelled
  as lists of characters, each character being its list of UTF-8 bytes, so
  that Rust's byte-indexed, char-boundary-checked `str::get` is captured
  exactly;
* the `FuzzyFinder` store of `src/lib.rs` / `src/data.rs`: the `IndexMap` is
  modelled as an insertion-ordered association list, the external
  `SkimMatcherV2` scorer as an arbitrary pure function parameter, and the
  `tui::ListState` selection as its `selected` field.
-/

/-! ## Text model

A `RustStr` is a UTF-8 string, kept as the list of its characters' byte
sequences so that both byte offsets and character boundaries are available. -/

abbrev RustStr : Type := List (List Nat)

/-- The underlying byte string. -/
def RustStr.bytes : RustStr → List Nat
  | [] => []
  | c :: cs => c ++ RustStr.bytes cs

/-- Length in bytes (Rust `str::len`). -/
def RustStr.byteLen (s : RustStr) : Nat := s.bytes.length

/-- Does `i` equal `acc` plus the byte length of some prefix of `cs`? -/
def boundaryCheck : List (List Nat) → Nat → Nat → Bool
  | [], acc, i => i == acc
  | c :: cs, acc, i => i == acc || boundaryCheck cs (acc + c.length) i

/-- Rust `str::is_char_boundary`: `i` is the byte offset of a character
boundary (which forces `i ≤ byteLen`). -/
def RustStr.isBoundary (s : RustStr) (i : Nat) : Bool := boundaryCheck s 0 i

/-- Rust `std::ops::Bound<usize>`, as captured in the error value. -/
inductive RBound where
  | included : Nat → RBound
  | excluded : Nat → RBound
  | unbounded : RBound
deriving DecidableEq, Repr

/-- The single error of the highlight module
(`MatchHighlightError::SubstringNotFound { start, end, string }`). -/
structure MatchHighlightError where
  start : RBound
  stop : RBound
  string : RustStr
deriving DecidableEq, Repr

/-- Rust `string.get(a..b)`: `Some` iff `a ≤ b` and both ends are char
boundaries, returning the bytes in `[a, b)`. -/
def getRange (s : RustStr) (a b : Nat) : Option (List Nat) :=
  if a ≤ b && s.isBoundary a && s.isBoundary b then
    some ((s.bytes.drop a).take (b - a))
  else
    Option.none

/-- Rust `string.get(a..)`: `Some` iff `a` is a char boundary. -/
def getFrom (s : RustStr) (a : Nat) : Option (List Nat) :=
  if s.isBoundary a then some (s.bytes.drop a) else Option.none

/-- `get_substring(string, i..m)` from the source: wraps the failed range in
the error value. -/
def get_substring (s : RustStr) (a b : Nat) : Except MatchHighlightError (List Nat) :=
  match getRange s a b with
  | some sub => Except.ok sub
  | Option.none => Except.error ⟨RBound.included a, RBound.excluded b, s⟩

/-- `get_substring(string, i..)` from the source. -/
def get_substring_from (s : RustStr) (a : Nat) : Except MatchHighlightError (List Nat) :=
  match getFrom s a with
  | some sub => Except.ok sub
  | Option.none => Except.error ⟨RBound.included a, RBound.unbounded, s⟩

/-- `highlight::Style` from the source: an unmatched or matched run of text. -/
inductive Style where
  | none : List Nat → Style
  | matched : List Nat → Style
deriving DecidableEq, Repr

/-- The loop of `sections_from_stringdices` while a matched run
`[start, j)` is open.  The source drives one peekable iterator with a nested
while: the inner while extends the run one index at a time (`m ≤ j` consumes
`m` and bumps `j`); an index `m > j` closes the run, emits the matched
substring `[start, j)` and the unmatched gap `[j, m)` (the source's guard
`m > 0` is vacuous there since `m > j ≥ 1`), and opens the run `[m, m+1)`.
At the end of the indices the run is emitted, followed by the unmatched tail
`[j, len)` when `j` is not at the end.  Substring lookups are performed in
the source's order, so the first failing lookup yields the same error. -/
def goRun (s : RustStr) (start j : Nat) : List Nat → Except MatchHighlightError (List Style)
  | [] =>
    match get_substring s start j with
    | Except.error e => Except.error e
    | Except.ok sub =>
      if j < s.byteLen then
        match get_substring_from s j with
        | Except.error e => Except.error e
        | Except.ok t => Except.ok [Style.matched sub, Style.none t]
      else
        Except.ok [Style.matched sub]
  | m :: rest =>
    if m > j then
      match get_substring s start j with
      | Except.error e => Except.error e
      | Except.ok sub =>
        match get_substring s j m with
        | Except.error e => Except.error e
        | Except.ok pre =>
          match goRun s m (m + 1) rest with
          | Except.error e => Except.error e
          | Except.ok tail => Except.ok (Style.matched sub :: Style.none pre :: tail)
    else
      goRun s start (j + 1) rest

/-- `sections_from_stringdices` from `src/highlight.rs` (identical to
`highlight_sections_from_stringdices` in `src/lib.rs`): decode a match-index
list into alternating unmatched/matched runs.  An empty index list yields the
whole text unmatched (or nothing when the text is empty); otherwise the
leading gap `[0, m)` is emitted when the first index `m` is positive and the
run loop `goRun` takes over. -/
def sections_from_stringdices (s : RustStr) : List Nat → Except MatchHighlightError (List Style)
  | [] =>
    if 0 < s.byteLen then
      match get_substring_from s 0 with
      | Except.error e => Except.error e
      | Except.ok t => Except.ok [Style.none t]
    else
      Except.ok []
  | m :: rest =>
    match (if m > 0 then
            match get_substring s 0 m with
            | Except.error e => Except.error e
            | Except.ok t => Except.ok [Style.none t]
           else Except.ok []) with
    | Except.error e => Except.error e
    | Except.ok pre =>
      match goRun s m (m + 1) rest with
      | Except.error e => Except.error e
      | Except.ok tail => Except.ok (pre ++ tail)

/-- The text "abc". -/
def sAbc : RustStr := [[97], [98], [99]]

/-- The text "é" (U+00E9): a single two-byte character. -/
def sEacute : RustStr := [[195, 169]]

/-! ## FuzzyFinder model

The store is the `IndexMap<Cow<str>, Option<FuzzyScore>>` of the source, kept
as an insertion-ordered association list (keys unique by construction of the
operations, like `IndexMap`).  The external `SkimMatcherV2` scorer, a pure
function, is passed as an explicit `matcher` parameter.  Of `tui`'s
`ListState` only the `selected : Option<usize>` field is ever read or
written, so `state` is that field. -/

/-- `FuzzyScore` from the source. -/
structure FuzzyScore where
  score : Int
  indices : List Nat
deriving DecidableEq, Repr

/-- `FuzzyListEntry` from the source, the return type of `selection`. -/
structure FuzzyListEntry where
  value : String
  score : Int
  indices : List Nat
deriving DecidableEq, Repr

/-- `FuzzyFinder` from the source. -/
structure FuzzyFinder where
  filter : String
  matches' : List (String × Option FuzzyScore)
  state : Option Nat
deriving DecidableEq, Repr

/-- `FuzzyScore::cmp`: reversed score comparison, so that ascending order is
highest score first. -/
def FuzzyScore.cmp (a b : FuzzyScore) : Ordering := compare b.score a.score

/-- The comparator passed to `par_sort_unstable_by` in `update_matches`:
present scores by `FuzzyScore::cmp`, a present score before an absent one.
(On two absent scores the source returns `Greater` either way round, an
artifact its unstable sort tolerates; see `scoreLE` below.) -/
def matchCmp : Option FuzzyScore → Option FuzzyScore → Ordering
  | some v1, some v2 => v1.cmp v2
  | some _, Option.none => Ordering.lt
  | Option.none, _ => Ordering.gt

/-- The total preorder induced by `matchCmp`: matched entries in descending
score order, all of them before the scoreless entries, scoreless entries
tied among themselves.  The source sorts with `par_sort_unstable_by`, which
promises some order agreeing with the comparator but fixes neither the
relative order of equal scores nor that of scoreless entries; the model
sorts stably by `scoreLE`, thereby picking one of the admissible outcomes
(the insertion-order tie-break that spec §9 prescribes). -/
def scoreLE : Option FuzzyScore → Option FuzzyScore → Bool
  | some v1, some v2 => decide (v2.score ≤ v1.score)
  | some _, Option.none => true
  | Option.none, some _ => false
  | Option.none, Option.none => true

/-- The sorting relation on store entries: compare the cached scores. -/
def entryLE (p q : String × Option FuzzyScore) : Prop := scoreLE p.2 q.2 = true

instance : DecidableRel entryLE := fun p q =>
  inferInstanceAs (Decidable (scoreLE p.2 q.2 = true))

instance : IsTotal (String × Option FuzzyScore) entryLE where
  total p q := by
    rcases p with ⟨pk, _ | pa⟩ <;> rcases q with ⟨qk, _ | qa⟩ <;>
      simp [entryLE, scoreLE] <;> omega

instance : IsTrans (String × Option FuzzyScore) entryLE where
  trans p q r hpq hqr := by
    rcases p with ⟨pk, _ | pa⟩ <;> rcases q with ⟨qk, _ | qa⟩ <;>
      rcases r with ⟨rk, _ | ra⟩ <;>
      simp_all [entryLE, scoreLE] <;> omega

/-- `FuzzyFinder::default()`: empty filter, empty store, nothing selected. -/
def FuzzyFinder.default : FuzzyFinder := ⟨"", [], Option.none⟩

/-- `reset_selection`: select line 0, or nothing when the store is empty.
Note the emptiness test is on the whole store, scoreless entries included. -/
def FuzzyFinder.reset_selection (ff : FuzzyFinder) : FuzzyFinder :=
  if ff.matches'.isEmpty then { ff with state := Option.none }
  else { ff with state := some 0 }

/-- `update_matches`: rescore every entry (new filter term) or only the
scoreless ones (incremental), sort by the comparator, reset the selection. -/
def FuzzyFinder.update_matches (matcher : String → String → Option FuzzyScore)
    (ff : FuzzyFinder) (new_filter_term : Bool) : FuzzyFinder :=
  let rescored := ff.matches'.map fun p =>
    if new_filter_term || p.2.isNone then (p.1, matcher p.1 ff.filter) else p
  FuzzyFinder.reset_selection { ff with matches' := List.insertionSort entryLE rescored }

/-- `set_filter`: replace the filter term, full rescoring pass. -/
def FuzzyFinder.set_filter (matcher : String → String → Option FuzzyScore)
    (ff : FuzzyFinder) (f : String) : FuzzyFinder :=
  FuzzyFinder.update_matches matcher { ff with filter := f } true

/-- `clear_filter`: reset the filter term, full rescoring pass. -/
def FuzzyFinder.clear_filter (matcher : String → String → Option FuzzyScore)
    (ff : FuzzyFinder) : FuzzyFinder :=
  FuzzyFinder.update_matches matcher { ff with filter := "" } true

/-- `_push_option`: `matches.entry(option).or_insert(None)` — append a fresh
scoreless entry if the key is new, otherwise leave the map untouched. -/
def FuzzyFinder.push_option_raw (ff : FuzzyFinder) (option : String) : FuzzyFinder :=
  if ff.matches'.any (fun p => p.1 == option) then ff
  else { ff with matches' := ff.matches' ++ [(option, Option.none)] }

/-- `push_option`: add one option, incremental update. -/
def FuzzyFinder.push_option (matcher : String → String → Option FuzzyScore)
    (ff : FuzzyFinder) (option : String) : FuzzyFinder :=
  FuzzyFinder.update_matches matcher (FuzzyFinder.push_option_raw ff option) false

/-- `push_options`: add options in order, one incremental update at the end. -/
def FuzzyFinder.push_options (matcher : String → String → Option FuzzyScore)
    (ff : FuzzyFinder) (options : List String) : FuzzyFinder :=
  FuzzyFinder.update_matches matcher (options.foldl FuzzyFinder.push_option_raw ff) false

/-- `set_options`: clear the store, then push the given options. -/
def FuzzyFinder.set_options (matcher : String → String → Option FuzzyScore)
    (ff : FuzzyFinder) (options : List String) : FuzzyFinder :=
  FuzzyFinder.push_options matcher { ff with matches' := [] } options

/-- `remove_option`: `matches.shift_remove(key)` — delete the entry with that
key, keeping the order of the remaining entries.  Neither the scores nor the
selection are touched. -/
def FuzzyFinder.remove_option (ff : FuzzyFinder) (key : String) : FuzzyFinder :=
  { ff with matches' := ff.matches'.eraseP fun p => p.1 == key }

/-- `remove_options`: `remove_option` for each key in turn. -/
def FuzzyFinder.remove_options (ff : FuzzyFinder) (keys : List String) : FuzzyFinder :=
  keys.foldl FuzzyFinder.remove_option ff

/-- `selection`: the entry at the selected position, provided it exists and
carries a cached score; `None` otherwise. -/
def FuzzyFinder.selection (ff : FuzzyFinder) : Option FuzzyListEntry :=
  ff.state.bind fun i =>
    (ff.matches'[i]?).bind fun p =>
      p.2.map fun s => ⟨p.1, s.score, s.indices⟩

/-- The number of entries currently in `Matched` state (cached score
present), as opposed to the total entry count `ff.matches'.length`. -/
def FuzzyFinder.matchedCount (ff : FuzzyFinder) : Nat :=
  ff.matches'.countP fun p => p.2.isSome

/-- A concrete scorer for the spec's scenarios: an empty filter matches
every candidate trivially (score 0, no matched positions), any other filter
matches nothing.  This is the spec §8 "filter-empty-matches-all" scorer. -/
def trivMatcher : String → String → Option FuzzyScore :=
  fun _ f => if f = "" then some ⟨0, []⟩ else Option.none

/-- The ranking invariant the spec states for the store's iteration order:
every entry with a cached score precedes every scoreless entry, and cached
scores are weakly descending. -/
def Ranked (l : List (String × Option FuzzyScore)) : Prop :=
  l.Pairwise fun p q =>
    (p.2 = Option.none → q.2 = Option.none) ∧
    ∀ a b : FuzzyScore, p.2 = some a → q.2 = some b → b.score ≤ a.score

/-- Scenario state: push the single option "a" under the empty filter, then
set the filter to "z", which matches nothing. -/
def ffNoMatch : FuzzyFinder :=
  FuzzyFinder.set_filter trivMatcher
    (FuzzyFinder.push_option trivMatcher FuzzyFinder.default "a") "z"

/-- Scenario state: push the single option "a", then remove it again. -/
def ffRemoveAll : FuzzyFinder :=
  FuzzyFinder.remove_option
    (FuzzyFinder.push_option trivMatcher FuzzyFinder.default "a") "a"

/-- Scenario state of spec §8 scenario 2: push "hello" and "friend" under
the empty filter, then remove "hello". -/
def ffScenario2 : FuzzyFinder :=
  FuzzyFinder.remove_option
    (FuzzyFinder.push_options trivMatcher FuzzyFinder.default ["hello", "friend"]) "hello"

/-- A store holding the single already-scored entry "a". -/
def ffW : FuzzyFinder := ⟨"", [("a", some ⟨1, [0]⟩)], some 0⟩

/-! ## Properties of the text model -/

/-- `scoreLE` agrees with the source comparator wherever the comparator is
consistent (that is, on every pair with at least one present score). -/
theorem scoreLE_eq_matchCmp (a b : Option FuzzyScore) (h : a.isSome ∨ b.isSome) :
    (scoreLE a b = true ↔ matchCmp a b ≠ Ordering.gt) := by
  rcases a with _ | va <;> rcases b with _ | vb <;>
    simp_all [scoreLE, matchCmp, FuzzyScore.cmp, compare, compareOfLessAndEq] <;>
    constructor <;> intro hc <;> omega

/-- Offset 0 is always a character boundary. -/
theorem isBoundary_zero (s : RustStr) : s.isBoundary 0 = true := by
  cases s <;> simp [RustStr.isBoundary, boundaryCheck]

/-- A passing boundary check bounds the offset by the remaining byte count. -/
theorem boundaryCheck_le (cs : List (List Nat)) (acc i : Nat)
    (h : boundaryCheck cs acc i = true) : i ≤ acc + (RustStr.bytes cs).length := by
  induction cs generalizing acc with
  | nil =>
    simp [boundaryCheck] at h
    simp [RustStr.bytes, h]
  | cons c cs ih =>
    simp [boundaryCheck] at h
    rcases h with h | h
    · simp [RustStr.bytes, h]
    · have := ih (acc + c.length) h
      simp [RustStr.bytes]
      omega

/-- Character boundaries lie within the text. -/
theorem isBoundary_le (s : RustStr) (i : Nat) (h : s.isBoundary i = true) :
    i ≤ s.byteLen := by
  have := boundaryCheck_le s 0 i h
  simpa [RustStr.byteLen] using this

/-- A successful substring lookup certifies an ordered, boundary-valid range. -/
theorem get_substring_ok (s : RustStr) (a b : Nat) (sub : List Nat)
    (h : get_substring s a b = Except.ok sub) :
    a ≤ b ∧ s.isBoundary a = true ∧ s.isBoundary b = true := by
  by_cases hc : (a ≤ b && s.isBoundary a && s.isBoundary b) = true
  · simp_all
  · simp [get_substring, getRange, hc] at h

/-- If the run loop succeeds, its current run end is within the text. -/
theorem goRun_ok_le (s : RustStr) (idx : List Nat) :
    ∀ (start j : Nat) (l : List Style), goRun s start j idx = Except.ok l →
      j ≤ s.byteLen := by
  induction idx with
  | nil =>
    intro start j l h
    unfold goRun at h
    cases hg : get_substring s start j with
    | error e => rw [hg] at h; simp at h
    | ok sub =>
      exact isBoundary_le s j (get_substring_ok s start j sub hg).2.2
  | cons m rest ih =>
    intro start j l h
    unfold goRun at h
    by_cases hmj : m > j
    · rw [if_pos hmj] at h
      cases hg : get_substring s start j with
      | error e => rw [hg] at h; simp at h
      | ok sub =>
        exact isBoundary_le s j (get_substring_ok s start j sub hg).2.2
    · rw [if_neg hmj] at h
      have := ih start (j + 1) l h
      omega

/-- If the run loop succeeds, every index it was fed lies strictly inside
the text. -/
theorem goRun_ok_mem (s : RustStr) (idx : List Nat) :
    ∀ (start j : Nat) (l : List Style), goRun s start j idx = Except.ok l →
      ∀ m ∈ idx, m < s.byteLen := by
  induction idx with
  | nil => intro start j l _ m hm; simp at hm
  | cons m0 rest ih =>
    intro start j l h m hm
    unfold goRun at h
    by_cases hmj : m0 > j
    · rw [if_pos hmj] at h
      cases hg1 : get_substring s start j with
      | error e => rw [hg1] at h; simp at h
      | ok sub =>
        rw [hg1] at h
        cases hg2 : get_substring s j m0 with
        | error e => rw [hg2] at h; simp at h
        | ok pre =>
          rw [hg2] at h
          cases hg3 : goRun s m0 (m0 + 1) rest with
          | error e => rw [hg3] at h; simp at h
          | ok tail =>
            have hj := goRun_ok_le s rest m0 (m0 + 1) tail hg3
            rcases List.mem_cons.mp hm with rfl | hm'
            · omega
            · exact ih m0 (m0 + 1) tail hg3 m hm'
    · rw [if_neg hmj] at h
      have hj := goRun_ok_le s rest start (j + 1) l h
      rcases List.mem_cons.mp hm with rfl | hm'
      · omega
      · exact ih start (j + 1) l h m hm'

/-- If the segmenter succeeds, every supplied index lies strictly inside the
text; contrapositively, an out-of-bounds index forces the error. -/
theorem sections_ok_mem (s : RustStr) (idx : List Nat) (l : List Style)
    (h : sections_from_stringdices s idx = Except.ok l) : ∀ m ∈ idx, m < s.byteLen := by
  cases idx with
  | nil => intro m hm; simp at hm
  | cons m0 rest =>
    intro m hm
    simp only [sections_from_stringdices] at h
    cases hp : (if m0 > 0 then
            match get_substring s 0 m0 with
            | Except.error e => Except.error e
            | Except.ok t => Except.ok [Style.none t]
           else Except.ok ([] : List Style)) with
    | error e => rw [hp] at h; simp at h
    | ok pre =>
      rw [hp] at h
      cases hg : goRun s m0 (m0 + 1) rest with
      | error e => rw [hg] at h; simp at h
      | ok tail =>
        have hj := goRun_ok_le s rest m0 (m0 + 1) tail hg
        rcases List.mem_cons.mp hm with rfl | hm'
        · omega
        · exact goRun_ok_mem s rest m0 (m0 + 1) tail hg m hm'

/-! ## Properties of the finder model -/

/-- `reset_selection` touches only the selection. -/
theorem reset_selection_matches (ff : FuzzyFinder) :
    (FuzzyFinder.reset_selection ff).matches' = ff.matches' := by
  unfold FuzzyFinder.reset_selection
  split <;> rfl

/-- `reset_selection` touches only the selection. -/
theorem reset_selection_filter (ff : FuzzyFinder) :
    (FuzzyFinder.reset_selection ff).filter = ff.filter := by
  unfold FuzzyFinder.reset_selection
  split <;> rfl

/-- The selection `reset_selection` leaves behind does not depend on the
selection it found. -/
theorem reset_selection_state_indep (fl : String) (M : List (String × Option FuzzyScore))
    (st st' : Option Nat) :
    FuzzyFinder.reset_selection ⟨fl, M, st⟩ = FuzzyFinder.reset_selection ⟨fl, M, st'⟩ := by
  unfold FuzzyFinder.reset_selection
  by_cases h : M.isEmpty <;> simp [h]

/-- The store `update_matches` leaves behind: the rescored entries, sorted. -/
theorem update_matches_def (m : String → String → Option FuzzyScore)
    (ff : FuzzyFinder) (b : Bool) :
    (FuzzyFinder.update_matches m ff b).matches' =
      List.insertionSort entryLE (ff.matches'.map fun p =>
        if b || p.2.isNone then (p.1, m p.1 ff.filter) else p) := by
  unfold FuzzyFinder.update_matches
  rw [reset_selection_matches]

/-- After `update_matches` the selection is line 0, or cleared exactly when
the whole store is empty. -/
theorem update_matches_state (m : String → String → Option FuzzyScore)
    (ff : FuzzyFinder) (b : Bool) :
    (FuzzyFinder.update_matches m ff b).state =
      if (FuzzyFinder.update_matches m ff b).matches'.isEmpty then Option.none
      else some 0 := by
  unfold FuzzyFinder.update_matches FuzzyFinder.reset_selection
  dsimp only
  split <;> simp_all

/-- `remove_options` never touches the selection. -/
theorem remove_options_state (ks : List String) : ∀ ff : FuzzyFinder,
    (FuzzyFinder.remove_options ff ks).state = ff.state := by
  induction ks with
  | nil => intro ff; rfl
  | cons k ks ih => intro ff; exact ih (FuzzyFinder.remove_option ff k)

/-- What `selection` can return: nothing, or precisely the entry stored at
the selected position together with its cached score. -/
theorem selection_char (ff : FuzzyFinder) :
    FuzzyFinder.selection ff = Option.none ∨
    ∃ i v s, ff.state = some i ∧ ff.matches'[i]? = some (v, some s) ∧
      FuzzyFinder.selection ff = some ⟨v, s.score, s.indices⟩ := by
  cases hst : ff.state with
  | none => left; simp [FuzzyFinder.selection, hst]
  | some i =>
    cases hm : ff.matches'[i]? with
    | none => left; simp [FuzzyFinder.selection, hst, hm]
    | some p =>
      rcases p with ⟨pv, _ | s⟩
      · left; simp [FuzzyFinder.selection, hst, hm]
      · right; exact ⟨i, pv, s, rfl, hm, by simp [FuzzyFinder.selection, hst, hm]⟩

/-- A sorted store satisfies the spec's ranking invariant. -/
theorem ranked_update (m : String → String → Option FuzzyScore)
    (ff : FuzzyFinder) (b : Bool) :
    Ranked (FuzzyFinder.update_matches m ff b).matches' := by
  rw [update_matches_def]
  refine List.Pairwise.imp ?_ (List.sorted_insertionSort entryLE _)
  intro p q hle
  rcases p with ⟨pv, _ | pa⟩ <;> rcases q with ⟨qv, _ | qa⟩ <;>
    simp_all [entryLE, scoreLE]

/-- Mapping a function that fixes every element of a list is the identity. -/
theorem map_eq_self_of {α : Type} {l : List α} {f : α → α}
    (h : ∀ x ∈ l, f x = x) : l.map f = l := by
  induction l with
  | nil => rfl
  | cons x xs ih => simp_all

/-- `set_filter` in closed form. -/
theorem set_filter_eq (m : String → String → Option FuzzyScore)
    (ff : FuzzyFinder) (f : String) :
    FuzzyFinder.set_filter m ff f =
      FuzzyFinder.reset_selection
        ⟨f, List.insertionSort entryLE (ff.matches'.map fun p => (p.1, m p.1 f)),
          ff.state⟩ := by
  unfold FuzzyFinder.set_filter FuzzyFinder.update_matches
  simp

/-! ## The claims -/

/-- Claim C3, counterexample: the segmenter does not reject bad index lists
in general.  The non-ascending list `[1, 0]` on "abc" and the duplicate list
`[0, 0]` on "abc" both succeed (the offending index is silently absorbed
into the matched run), as does `[0, 1]` on "é" although offset 1 splits the
two-byte character.  So "non-ascending, contains duplicates, or ... would
split a multi-byte character" does not imply the error. -/
theorem C3_counterexample :
    sections_from_stringdices sAbc [1, 0] =
      Except.ok [Style.none [97], Style.matched [98, 99]] ∧
    sections_from_stringdices sAbc [0, 0] =
      Except.ok [Style.matched [97, 98], Style.none [99]] ∧
    sections_from_stringdices sEacute [0, 1] =
      Except.ok [Style.matched [195, 169]] := by
  refine ⟨?_, ?_, ?_⟩ <;> rfl

/-- Claim C3, amended: whenever the index list contains a position at or
beyond the end of the text, the segmenter fails with the
`InvalidMatchIndices` error (`SubstringNotFound`); in particular segmenting
"abc" with `[5]` fails.  (Non-ascending, duplicate, or boundary-splitting
indices, however, are not necessarily rejected — see the counterexample.) -/
theorem C3_amended_oob_error :
    (∀ (s : RustStr) (idx : List Nat), (∃ m ∈ idx, s.byteLen ≤ m) →
        ∃ e, sections_from_stringdices s idx = Except.error e) ∧
    sections_from_stringdices sAbc [5] =
      Except.error ⟨RBound.included 0, RBound.excluded 5, sAbc⟩ := by
  refine ⟨?_, by rfl⟩
  intro s idx hoob
  rcases hres : sections_from_stringdices s idx with e | l
  · exact ⟨e, rfl⟩
  · rcases hoob with ⟨m, hm, hge⟩
    have := sections_ok_mem s idx l hres m hm
    omega

/-- Claim C3, witness for the amended theorem: `[5]` is out of bounds for
"abc", and the theorem turns that into an error. -/
theorem C3_amended_witness :
    ∃ e, sections_from_stringdices sAbc [5] = Except.error e :=
  C3_amended_oob_error.1 sAbc [5] ⟨5, by decide, by decide⟩

/-- Claim C4: the code evaluated at the failing input.  The text "é" (bytes
`[195, 169]`) with the valid index list `[0]` should, per the claim, succeed
with segments concatenating back to the text; the code instead fails with
`SubstringNotFound` because it closes the matched run at raw offset 1,
splitting the two-byte character.  (The source's own `#[ignore]`d tests
`found_bug_1`/`found_bug_2` document this as a bug, and spec §9 records the
defect, so the code, not the claim, is wrong.) -/
theorem C4_multibyte_failure :
    sections_from_stringdices sEacute [0] =
      Except.error ⟨RBound.included 0, RBound.excluded 1, sEacute⟩ := by
  rfl

/-- Claim C7: the segmenter on an empty index list returns the whole text as
one unmatched segment when the text is non-empty, and no segments when the
text is empty; in particular on "abc" it returns `[Unmatched "abc"]` and on
"" it returns `[]`. -/
theorem C7_empty_indices :
    (∀ s : RustStr,
      sections_from_stringdices s [] =
        Except.ok (if s.byteLen = 0 then [] else [Style.none s.bytes])) ∧
    sections_from_stringdices sAbc [] = Except.ok [Style.none [97, 98, 99]] ∧
    sections_from_stringdices ([] : RustStr) [] = Except.ok [] := by
  refine ⟨?_, by rfl, by rfl⟩
  intro s
  have hfrom : get_substring_from s 0 = Except.ok s.bytes := by
    simp [get_substring_from, getFrom, isBoundary_zero]
  rcases Nat.eq_zero_or_pos s.byteLen with h0 | h0
  · simp [sections_from_stringdices, h0]
  · simp only [sections_from_stringdices, if_pos h0, hfrom]
    rw [if_neg (by omega)]

/-- Claim C1, counterexample: after `set_filter "z"` on a store holding the
single candidate "a" (which "z" does not match), the number of `Matched`
entries is 0, yet the selection is `Some 0`, not `None` — `reset_selection`
tests emptiness of the whole store, not of its matched part. -/
theorem C1_counterexample :
    ¬ (FuzzyFinder.matchedCount ffNoMatch = 0 → ffNoMatch.state = Option.none) := by
  decide

/-- Claim C1, amended: after `set_filter`, `clear_filter`, `push_option`,
`push_options` or `set_options` the selection is `None` exactly when the
store holds no entry at all (matched or not), and `Some 0` otherwise; after
`remove_option` or `remove_options` the selection is left untouched.  (In
particular the selection index can address an unmatched entry or lie beyond
the matched count.) -/
theorem C1_amended_selection_reset :
    ∀ (m : String → String → Option FuzzyScore) (ff : FuzzyFinder) (f key : String)
      (os ks : List String),
      ((FuzzyFinder.set_filter m ff f).state =
        if (FuzzyFinder.set_filter m ff f).matches'.isEmpty then Option.none
        else some 0) ∧
      ((FuzzyFinder.clear_filter m ff).state =
        if (FuzzyFinder.clear_filter m ff).matches'.isEmpty then Option.none
        else some 0) ∧
      ((FuzzyFinder.push_option m ff f).state =
        if (FuzzyFinder.push_option m ff f).matches'.isEmpty then Option.none
        else some 0) ∧
      ((FuzzyFinder.push_options m ff os).state =
        if (FuzzyFinder.push_options m ff os).matches'.isEmpty then Option.none
        else some 0) ∧
      ((FuzzyFinder.set_options m ff os).state =
        if (FuzzyFinder.set_options m ff os).matches'.isEmpty then Option.none
        else some 0) ∧
      (FuzzyFinder.remove_option ff key).state = ff.state ∧
      (FuzzyFinder.remove_options ff ks).state = ff.state := by
  intro m ff f key os ks
  exact ⟨update_matches_state m { ff with filter := f } true,
         update_matches_state m { ff with filter := "" } true,
         update_matches_state m (FuzzyFinder.push_option_raw ff f) false,
         update_matches_state m (os.foldl FuzzyFinder.push_option_raw ff) false,
         update_matches_state m (os.foldl FuzzyFinder.push_option_raw
           { ff with matches' := [] }) false,
         rfl, remove_options_state ks ff⟩

/-- Claim C2, counterexample: push the single option "a", then remove it.
The store is empty, yet the selection index is still `Some 0`: it neither
addresses a live matched candidate nor has it been cleared —
`remove_option`/`remove_options` do not reconcile the selection at all. -/
theorem C2_counterexample :
    ffRemoveAll.matches' = [] ∧ ffRemoveAll.state = some 0 := by
  decide

/-- Claim C2, amended: `remove_option` and `remove_options` leave the
selection index unchanged (no reconciliation happens); the `selection`
accessor nevertheless only ever reports a live matched entry — the entry
actually stored at the selected position, when it carries a score — or
nothing.  The concrete scenario holds: after inserting "hello" and "friend"
under the empty filter and removing "hello", the store holds exactly
"friend" and the (stale but accidentally correct) selection is index 0 on
"friend". -/
theorem C2_amended_remove_selection :
    (∀ (ff : FuzzyFinder) (key : String) (ks : List String),
        (FuzzyFinder.remove_option ff key).state = ff.state ∧
        (FuzzyFinder.remove_options ff ks).state = ff.state) ∧
    (∀ ff : FuzzyFinder, FuzzyFinder.selection ff = Option.none ∨
      ∃ i v s, ff.state = some i ∧ ff.matches'[i]? = some (v, some s) ∧
        FuzzyFinder.selection ff = some ⟨v, s.score, s.indices⟩) ∧
    ffScenario2.matches' = [("friend", some ⟨0, []⟩)] ∧
    ffScenario2.state = some 0 ∧
    FuzzyFinder.selection ffScenario2 = some ⟨"friend", 0, []⟩ := by
  refine ⟨fun ff key ks => ⟨rfl, remove_options_state ks ff⟩, selection_char,
    by decide, by decide, by decide⟩

/-- Claim C5: after every rescoring/sort pass (`set_filter`, `clear_filter`,
`push_option`, `push_options`, `set_options`) the store's iteration order
has every `Matched` entry before every scoreless (`NoMatch`/`Unscored`)
entry, and the scores of the `Matched` entries weakly descending. -/
theorem C5_rank_order :
    ∀ (m : String → String → Option FuzzyScore) (ff : FuzzyFinder) (f o : String)
      (os : List String),
      Ranked (FuzzyFinder.set_filter m ff f).matches' ∧
      Ranked (FuzzyFinder.clear_filter m ff).matches' ∧
      Ranked (FuzzyFinder.push_option m ff o).matches' ∧
      Ranked (FuzzyFinder.push_options m ff os).matches' ∧
      Ranked (FuzzyFinder.set_options m ff os).matches' :=
  fun m ff f o os =>
    ⟨ranked_update m { ff with filter := f } true,
     ranked_update m { ff with filter := "" } true,
     ranked_update m (FuzzyFinder.push_option_raw ff o) false,
     ranked_update m (os.foldl FuzzyFinder.push_option_raw ff) false,
     ranked_update m (os.foldl FuzzyFinder.push_option_raw
       { ff with matches' := [] }) false⟩

/-- Claim C8: `set_filter` is idempotent — calling it twice in a row with
the same term and no mutation in between leaves the finder (ranked view,
scores, indices and selection) exactly as after the first call. -/
theorem C8_set_filter_idempotent :
    ∀ (m : String → String → Option FuzzyScore) (ff : FuzzyFinder) (f : String),
      FuzzyFinder.set_filter m (FuzzyFinder.set_filter m ff f) f =
        FuzzyFinder.set_filter m ff f := by
  intro m ff f
  have hM : ∀ p ∈ List.insertionSort entryLE
      (ff.matches'.map fun p => (p.1, m p.1 f)),
      (fun p : String × Option FuzzyScore => (p.1, m p.1 f)) p = p := by
    intro p hp
    have hmem : p ∈ ff.matches'.map fun p => (p.1, m p.1 f) :=
      ((List.perm_insertionSort entryLE _).mem_iff).mp hp
    rcases List.mem_map.mp hmem with ⟨q, _, rfl⟩
    rfl
  rw [set_filter_eq m ff f, set_filter_eq m _ f, reset_selection_matches]
  show FuzzyFinder.reset_selection
      ⟨f, List.insertionSort entryLE ((List.insertionSort entryLE
        (ff.matches'.map fun p => (p.1, m p.1 f))).map fun p => (p.1, m p.1 f)), _⟩ = _
  rw [map_eq_self_of hM,
    (List.sorted_insertionSort entryLE (ff.matches'.map fun p => (p.1, m p.1 f))).insertionSort_eq]
  exact reset_selection_state_indep f _ _ ff.state

/-- Claim C9: pushing an option whose key is already present leaves the
store untouched at the `_push_option` level (`entry(..).or_insert` keeps the
existing slot), creates no second entry for the key, keeps the entry count
unchanged, and the full `push_option` preserves every cached match result
(its incremental pass skips scored entries — re-insertion is not a reset). -/
theorem C9_reinsert_preserves :
    ∀ (m : String → String → Option FuzzyScore) (ff : FuzzyFinder) (k : String),
      (ff.matches'.any fun p => p.1 == k) = true →
        FuzzyFinder.push_option_raw ff k = ff ∧
        (FuzzyFinder.push_option m ff k).matches'.length = ff.matches'.length ∧
        ((FuzzyFinder.push_option m ff k).matches'.countP fun p => p.1 == k) =
          (ff.matches'.countP fun p => p.1 == k) ∧
        ∀ (v : String) (s : FuzzyScore), (v, some s) ∈ ff.matches' →
          (v, some s) ∈ (FuzzyFinder.push_option m ff k).matches' := by
  intro m ff k h
  have hraw : FuzzyFinder.push_option_raw ff k = ff := by
    unfold FuzzyFinder.push_option_raw
    rw [if_pos h]
  have hpush : FuzzyFinder.push_option m ff k = FuzzyFinder.update_matches m ff false := by
    unfold FuzzyFinder.push_option
    rw [hraw]
  refine ⟨hraw, ?_, ?_, ?_⟩
  · rw [hpush, update_matches_def]
    rw [(List.perm_insertionSort entryLE _).length_eq, List.length_map]
  · rw [hpush, update_matches_def]
    rw [(List.perm_insertionSort entryLE _).countP_eq, List.countP_map]
    refine List.countP_congr ?_
    intro p _
    rcases p with ⟨pv, _ | ps⟩ <;> simp [Function.comp]
  · intro v s hmem
    rw [hpush, update_matches_def]
    refine ((List.perm_insertionSort entryLE _).mem_iff).mpr ?_
    have := List.mem_map_of_mem
      (fun p : String × Option FuzzyScore =>
        if false || p.2.isNone then (p.1, m p.1 ff.filter) else p) hmem
    simpa using this

/-- Claim C9, witness: a store holding the already-scored entry "a"; pushing
"a" again changes nothing and the cached score survives `push_option`. -/
theorem C9_reinsert_witness :
    FuzzyFinder.push_option_raw ffW "a" = ffW ∧
    ("a", some (⟨1, [0]⟩ : FuzzyScore)) ∈
      (FuzzyFinder.push_option trivMatcher ffW "a").matches' :=
  ⟨(C9_reinsert_preserves trivMatcher ffW "a" (by decide)).1,
   (C9_reinsert_preserves trivMatcher ffW "a" (by decide)).2.2.2 "a" ⟨1, [0]⟩ (by decide)⟩

/-- Claim C10: whenever the selection index addresses an entry whose cached
match result is absent (unscored or not matching the current filter),
`selection` returns nothing, indistinguishable from the unselected state;
in particular after `set_filter "z"` on a store holding only "a" the index
is `Some 0` yet `selection` returns `None`. -/
theorem C10_unmatched_selection_hidden :
    (∀ (ff : FuzzyFinder) (i : Nat) (v : String),
        ff.state = some i → ff.matches'[i]? = some (v, Option.none) →
        FuzzyFinder.selection ff = Option.none) ∧
    ffNoMatch.state = some 0 ∧
    FuzzyFinder.selection ffNoMatch = Option.none := by
  refine ⟨?_, by decide, by decide⟩
  intro ff i v hst hm
  simp [FuzzyFinder.selection, hst, hm]

/-- Claim C10, witness: the general statement applied to a concrete store
whose selected entry carries no score. -/
theorem C10_unmatched_witness :
    FuzzyFinder.selection ⟨"", [("a", Option.none)], some 0⟩ = Option.none :=
  C10_unmatched_selection_hidden.1 ⟨"", [("a", Option.none)], some 0⟩ 0 "a" rfl rfl
